import Mathlib

/-!
Verification of the Unigma Enigma simulator (src/unigma.c, src/unigma.h).

This file gives a shallow embedding of the cipher engine: characters are
modelled as `Int` byte values (C `char`/`int`), C strings as `List Int`
(reading past the stored bytes of the zero-initialised 256-byte buffers
yields the value 0, which `List.getD _ _ 0` reproduces), and the
`EnigmaState` struct as a Lean structure.  All arithmetic follows the C
source: C `%` on `int` is `Int.tmod` (truncated remainder).
-/

set_option maxHeartbeats 1000000

/-- Byte values of a string literal (all source strings are ASCII). -/
def strBytes (s : String) : List Int :=
  s.toList.map (fun c => (c.toNat : Int))

/-- Read a byte of a NUL-terminated buffer: positions beyond the stored
list read 0, as in the zero-initialised C buffers. -/
def rd (s : List Int) (n : Nat) : Int :=
  s.getD n 0

/-- `ROTOR_WIRINGS` constant array (unigma.c lines 20-25):
rotor I, rotor II, rotor III, reflector B. -/
def ROTOR_WIRINGS : List (List Int) :=
  [ strBytes "EKMFLGDQVZNTOWYHXUSPAIBRCJ"
  , strBytes "AJDKSIRUXBLHWTMCQGZNPYFVOE"
  , strBytes "BDFHJLCPRTXVZNYEIWGAKMUSQO"
  , strBytes "YRUHQSLDPXNGOKMIEBFZCWVJAT" ]

/-- `NOTCH_POSITIONS_INIT` constant array (unigma.c line 29). -/
def NOTCH_POSITIONS_INIT : List Int := [16, 4, 21]

/-- The `ALPHABET` constant (unigma.c line 32). -/
def ALPHABET : List Int := strBytes "ABCDEFGHIJKLMNOPQRSTUVWXYZ"

/-- The `EnigmaState` struct (unigma.h lines 34-47).  The four wiring
buffers are the copies made by `init_rotors`; `pos0`/`pos1`/`pos2` are
`positions[0..2]` (index 0 = right slot, 1 = middle, 2 = left), and
`notch0`/`notch1`/`notch2` are `notch_positions[0..2]`. -/
structure EnigmaState where
  rotorI : List Int
  rotorII : List Int
  rotorIII : List Int
  reflectorB : List Int
  notch0 : Int
  notch1 : Int
  notch2 : Int
  pos0 : Int
  pos1 : Int
  pos2 : Int
  plugboard : List Int
deriving DecidableEq, Repr

/-- `state->rotors[rotor_index].wiring`. -/
def rotors_wiring (st : EnigmaState) (rotor_index : Nat) : List Int :=
  match rotor_index with
  | 0 => st.rotorI
  | 1 => st.rotorII
  | 2 => st.rotorIII
  | _ => st.reflectorB

/-- A state as built by `init_enigma` followed by any re-configuration of
positions and plugboard: wirings and notches are the constants, positions
and plugboard arbitrary. -/
def init_state (p0 p1 p2 : Int) (pb : List Int) : EnigmaState :=
  { rotorI := ROTOR_WIRINGS.getD 0 []
  , rotorII := ROTOR_WIRINGS.getD 1 []
  , rotorIII := ROTOR_WIRINGS.getD 2 []
  , reflectorB := ROTOR_WIRINGS.getD 3 []
  , notch0 := NOTCH_POSITIONS_INIT.getD 0 0
  , notch1 := NOTCH_POSITIONS_INIT.getD 1 0
  , notch2 := NOTCH_POSITIONS_INIT.getD 2 0
  , pos0 := p0
  , pos1 := p1
  , pos2 := p2
  , plugboard := pb }

/-- `init_enigma` (unigma.c lines 57-72): wirings and notches from the
constants, positions A A A (0,0,0), empty plugboard. -/
def init_enigma : EnigmaState := init_state 0 0 0 []

/-- `idx` (unigma.c lines 103-112): index of the first occurrence of `c`
in the NUL-terminated string `s`, or -1. -/
def idx : List Int → Int → Int
  | [], _ => -1
  | a :: rest, c =>
      if a = c then 0
      else
        let r := idx rest c
        if r = -1 then -1 else r + 1

/-- `mod_positive` (unigma.c lines 115-117); C `%` on `int` is truncated
remainder, `Int.tmod`. -/
def mod_positive (a : Int) : Int :=
  (a.tmod 26 + 26).tmod 26

/-- `encode_through_rotor` (unigma.c lines 124-136). -/
def encode_through_rotor (k : Int) (rotor_index : Nat) (position : Int)
    (direction : Int) (st : EnigmaState) : Int :=
  let i := mod_positive (k + position)
  if direction = 0 then
    let wired_char := rd (rotors_wiring st rotor_index) i.toNat
    mod_positive (idx ALPHABET wired_char - position)
  else
    let alphabet_char := rd ALPHABET i.toNat
    mod_positive (idx (rotors_wiring st rotor_index) alphabet_char - position)

/-- The inner space-skipping loop of `apply_plugboard`
(unigma.c lines 154-156): advance `p` past consecutive space bytes. -/
def skip_spaces (pb : List Int) (p : Nat) : Nat :=
  if rd pb p = 32 then skip_spaces pb (p + 1) else p
termination_by pb.length - p
decreasing_by
  rename_i h
  have hlt : p < pb.length := by
    by_contra hge
    have : rd pb p = 0 := by
      unfold rd
      exact List.getD_eq_default _ _ (by omega)
    omega
  omega

theorem rd_lt_length {pb : List Int} {p : Nat} (h : rd pb p ≠ 0) :
    p < pb.length := by
  by_contra hge
  have : rd pb p = 0 := by
    unfold rd
    exact List.getD_eq_default _ _ (by omega)
  omega

theorem skip_spaces_ge (pb : List Int) : ∀ p, p ≤ skip_spaces pb p := by
  refine skip_spaces.induct pb (fun p => p ≤ skip_spaces pb p) ?_ ?_
  · intro x h ih
    unfold skip_spaces
    rw [if_pos h]
    omega
  · intro x h
    unfold skip_spaces
    rw [if_neg h]

theorem skip_spaces_le (pb : List Int) :
    ∀ p, skip_spaces pb p ≤ max p pb.length := by
  refine skip_spaces.induct pb (fun p => skip_spaces pb p ≤ max p pb.length)
    ?_ ?_
  · intro x h ih
    have hlt : x < pb.length := rd_lt_length (by rw [h]; omega)
    unfold skip_spaces
    rw [if_pos h]
    omega
  · intro x h
    unfold skip_spaces
    rw [if_neg h]
    omega

/-- The pair-scanning loop of `apply_plugboard` (unigma.c lines 144-157),
instrumented with the scan pointer: returns the substituted character
together with the final value of `ptr` (an index into the buffer; the
pointer only moves forward, so the final value is the largest attained). -/
def plug_scan (pb : List Int) (c : Int) (p : Nat) : Int × Nat :=
  if rd pb p = 0 then (c, p)
  else if c = rd pb p ∧ rd pb (p + 1) ≠ 0 then (rd pb (p + 1), p)
  else if c = rd pb (p + 1) then (rd pb p, p)
  else plug_scan pb c (skip_spaces pb (p + 2))
termination_by pb.length + 2 - p
decreasing_by
  rename_i h _ _
  have hlt : p < pb.length := rd_lt_length h
  have h2 := skip_spaces_ge pb (p + 2)
  omega

/-- `apply_plugboard` (unigma.c lines 139-160). -/
def apply_plugboard (c : Int) (plugboard : List Int) : Int :=
  if rd plugboard 0 = 0 then c
  else (plug_scan plugboard c 0).1

/-- `step_rotors` (unigma.c lines 163-175): the middle rotor steps (and
carries the left rotor) when it sits at `notch_positions[1]`, otherwise it
steps when the right slot sits at `notch_positions[0]`; the right slot
always steps. -/
def step_rotors (st : EnigmaState) : EnigmaState :=
  let st1 :=
    if st.pos1 = st.notch1 then
      { st with pos1 := mod_positive (st.pos1 + 1)
              , pos2 := mod_positive (st.pos2 + 1) }
    else if st.pos0 = st.notch0 then
      { st with pos1 := mod_positive (st.pos1 + 1) }
    else st
  { st1 with pos0 := mod_positive (st1.pos0 + 1) }

/-- Lowercase-to-uppercase folding (unigma.c lines 183-185 and 346-348). -/
def foldChar (c : Int) : Int :=
  if 97 ≤ c ∧ c ≤ 122 then c - 32 else c

/-- The per-letter body of the `run_enigma` loop (unigma.c lines 196-218):
plugboard, rotors III-II-I forward, reflector B, rotors I-II-III reverse,
plugboard.  The argument `c` is the already-folded letter byte. -/
def encipher_letter (st : EnigmaState) (c : Int) : Int :=
  let c1 := apply_plugboard c st.plugboard
  let k0 := c1 - 65
  let k1 := encode_through_rotor k0 2 st.pos0 0 st
  let k2 := encode_through_rotor k1 1 st.pos1 0 st
  let k3 := encode_through_rotor k2 0 st.pos2 0 st
  let k4 := idx ALPHABET (rd (rotors_wiring st 3) k3.toNat)
  let k5 := encode_through_rotor k4 0 st.pos2 1 st
  let k6 := encode_through_rotor k5 1 st.pos1 1 st
  let k7 := encode_through_rotor k6 2 st.pos0 1 st
  apply_plugboard (k7 + 65) st.plugboard

/-- `run_enigma` (unigma.c lines 178-222) on an explicit input list:
returns the emitted bytes and the final machine state. -/
def run_enigma : EnigmaState → List Int → List Int × EnigmaState
  | st, [] => ([], st)
  | st, c0 :: rest =>
      let c := foldChar c0
      if c < 65 ∨ 90 < c then
        let r := run_enigma st rest
        (c :: r.1, r.2)
      else
        let st1 := step_rotors st
        let r := run_enigma st1 rest
        (encipher_letter st1 c :: r.1, r.2)

/-- `set_rotor_positions` (unigma.c lines 338-359).  `none` models the
`exit(1)` rejection paths.  The validation loop folds a local copy of each
character, but the stored values are computed from the unfolded input. -/
def set_rotor_positions (st : EnigmaState) (positions : List Int) :
    Option EnigmaState :=
  if positions.length ≠ 3 then none
  else if positions.all
      (fun c0 => decide (65 ≤ foldChar c0 ∧ foldChar c0 ≤ 90)) = false then
    none
  else
    some { st with pos2 := rd positions 0 - 65
                 , pos1 := rd positions 1 - 65
                 , pos0 := rd positions 2 - 65 }

/-- `set_plugboard` (unigma.c lines 362-383): reject only configurations
of 256 or more bytes, then store the input with a-z folded to A-Z.
`none` models the `exit(1)` rejection path. -/
def set_plugboard (st : EnigmaState) (plugboard_config : List Int) :
    Option EnigmaState :=
  if 256 ≤ plugboard_config.length then none
  else some { st with plugboard := plugboard_config.map foldChar }

/-! ### Arithmetic facts about `mod_positive` -/

theorem tmod26_lower (a : Int) : -26 < a.tmod 26 := by
  rcases a with m | m
  · have h := Int.tmod_nonneg (a := Int.ofNat m) 26 (by exact Int.ofNat_nonneg m)
    omega
  · have h : Int.tmod (Int.negSucc m) 26 = -(((m + 1) % 26 : Nat) : Int) := rfl
    have h2 : (m + 1) % 26 < 26 := Nat.mod_lt _ (by omega)
    omega

theorem mod_positive_eq_emod (a : Int) : mod_positive a = a % 26 := by
  unfold mod_positive
  have h1 : a.tmod 26 = a - 26 * (a.tdiv 26) := Int.tmod_def a 26
  have h2 : a.tmod 26 < 26 := Int.tmod_lt_of_pos a (by omega)
  have h3 : -26 < a.tmod 26 := tmod26_lower a
  have h4 : (a.tmod 26 + 26).tmod 26 = (a.tmod 26 + 26) % 26 :=
    Int.tmod_eq_emod (by omega) (by omega)
  rw [h4]
  generalize hq : a.tdiv 26 = q at h1
  omega

theorem mod_positive_bounds (a : Int) :
    0 ≤ mod_positive a ∧ mod_positive a < 26 := by
  rw [mod_positive_eq_emod]
  omega

/-! ### The wiring tables are permutations -/

/-- Numeric value (0..25) of wiring output contact `i`: the code's
`idx(ALPHABET, wiring[i])`. -/
def wv (w : List Int) (i : Nat) : Int := idx ALPHABET (rd w i)

/-- Inverse lookup: the code's `idx(wiring, ALPHABET[j])`. -/
def wi (w : List Int) (j : Nat) : Int := idx w (rd ALPHABET j)

/-- `w` is a 26-letter permutation table: forward and inverse lookup are
total, in range, and mutually inverse. -/
def rotor_perm_ok (w : List Int) : Prop :=
  ∀ i : Fin 26,
    (0 ≤ wv w i ∧ wv w i < 26 ∧ wi w (wv w i).toNat = (i : Int)) ∧
    (0 ≤ wi w i ∧ wi w i < 26 ∧ wv w (wi w i).toNat = (i : Int))

instance (w : List Int) : Decidable (rotor_perm_ok w) := by
  unfold rotor_perm_ok; infer_instance

theorem rotor_perm_ok_all : ∀ r : Fin 4,
    rotor_perm_ok (ROTOR_WIRINGS.getD r []) := by decide

theorem reflect_ok : ∀ j : Fin 26,
    0 ≤ wv (ROTOR_WIRINGS.getD 3 []) j ∧
    wv (ROTOR_WIRINGS.getD 3 []) j < 26 ∧
    wv (ROTOR_WIRINGS.getD 3 []) (wv (ROTOR_WIRINGS.getD 3 []) j).toNat
      = (j : Int) ∧
    wv (ROTOR_WIRINGS.getD 3 []) j ≠ (j : Int) := by decide
theorem encode_fwd_eq (st : EnigmaState) (r : Nat) (p k : Int) :
    encode_through_rotor k r p 0 st =
      (wv (rotors_wiring st r) (((k + p) % 26).toNat) - p) % 26 := by
  unfold encode_through_rotor wv
  simp only [mod_positive_eq_emod]
  norm_num

theorem encode_rev_eq (st : EnigmaState) (r : Nat) (p k : Int) :
    encode_through_rotor k r p 1 st =
      (wi (rotors_wiring st r) (((k + p) % 26).toNat) - p) % 26 := by
  unfold encode_through_rotor wi
  simp only [mod_positive_eq_emod]
  norm_num

theorem rev_fwd (st : EnigmaState) (r : Nat)
    (hw : rotor_perm_ok (rotors_wiring st r)) (p k : Int)
    (hk0 : 0 ≤ k) (hk1 : k < 26) :
    encode_through_rotor (encode_through_rotor k r p 0 st) r p 1 st = k := by
  rw [encode_fwd_eq, encode_rev_eq]
  set w := rotors_wiring st r with hwdef
  have hA : 0 ≤ (k + p) % 26 ∧ (k + p) % 26 < 26 := by omega
  have hfin : ((k + p) % 26).toNat < 26 := by omega
  have hw1 := (hw ⟨((k + p) % 26).toNat, hfin⟩).1
  simp only [Fin.val_mk] at hw1
  obtain ⟨hb1, hb2, hinv⟩ := hw1
  set W := wv w (((k + p) % 26).toNat) with hWdef
  have e1 : ((W - p) % 26 + p) % 26 = W := by omega
  rw [e1, hinv]
  omega

theorem fwd_rev (st : EnigmaState) (r : Nat)
    (hw : rotor_perm_ok (rotors_wiring st r)) (p k : Int)
    (hk0 : 0 ≤ k) (hk1 : k < 26) :
    encode_through_rotor (encode_through_rotor k r p 1 st) r p 0 st = k := by
  rw [encode_fwd_eq, encode_rev_eq]
  set w := rotors_wiring st r with hwdef
  have hA : 0 ≤ (k + p) % 26 ∧ (k + p) % 26 < 26 := by omega
  have hfin : ((k + p) % 26).toNat < 26 := by omega
  have hw2 := (hw ⟨((k + p) % 26).toNat, hfin⟩).2
  simp only [Fin.val_mk] at hw2
  obtain ⟨hb1, hb2, hinv⟩ := hw2
  set V := wi w (((k + p) % 26).toNat) with hVdef
  have e1 : ((V - p) % 26 + p) % 26 = V := by omega
  rw [e1, hinv]
  omega

theorem encode_bounds (k : Int) (r : Nat) (p d : Int) (st : EnigmaState) :
    0 ≤ encode_through_rotor k r p d st ∧
    encode_through_rotor k r p d st < 26 := by
  unfold encode_through_rotor
  dsimp only
  split
  · exact mod_positive_bounds _
  · exact mod_positive_bounds _

/-! ### Well-formed plugboard pair lists and their rendered strings -/

/-- The letters of a pair list, in order. -/
def pb_letters : List (Int × Int) → List Int
  | [] => []
  | q :: rest => q.1 :: q.2 :: pb_letters rest

/-- Every component of every pair is an uppercase letter byte. -/
def pairs_letters (ps : List (Int × Int)) : Prop :=
  ∀ q ∈ ps, 65 ≤ q.1 ∧ q.1 ≤ 90 ∧ 65 ≤ q.2 ∧ q.2 ≤ 90

/-- A well-formed plugboard: disjoint two-letter pairs (no letter occurs
twice, which also excludes self-pairs). -/
def WF_pairs (ps : List (Int × Int)) : Prop :=
  pairs_letters ps ∧ (pb_letters ps).Nodup

instance (ps : List (Int × Int)) : Decidable (pairs_letters ps) := by
  unfold pairs_letters
  infer_instance

instance (ps : List (Int × Int)) : Decidable (WF_pairs ps) := by
  unfold WF_pairs
  infer_instance

/-- The canonical stored plugboard string of a pair list: the two letters
of each pair, pairs separated by single spaces, e.g. "AB CD". -/
def pb_render : List (Int × Int) → List Int
  | [] => []
  | [q] => [q.1, q.2]
  | q :: rest => q.1 :: q.2 :: 32 :: pb_render rest

/-- The substitution defined by a pair list: the partner of `c` in the
first pair containing it, otherwise `c`. -/
def plugFun : List (Int × Int) → Int → Int
  | [], c => c
  | q :: rest, c =>
      if c = q.1 then q.2 else if c = q.2 then q.1 else plugFun rest c
theorem plugFun_cons_left (q : Int × Int) (rest : List (Int × Int)) :
    plugFun (q :: rest) q.1 = q.2 := by
  unfold plugFun
  rw [if_pos rfl]

theorem plugFun_cons_right (q : Int × Int) (rest : List (Int × Int))
    (h : q.2 ≠ q.1) : plugFun (q :: rest) q.2 = q.1 := by
  unfold plugFun
  rw [if_neg h, if_pos rfl]

theorem plugFun_cons_other (q : Int × Int) (rest : List (Int × Int))
    (c : Int) (h1 : c ≠ q.1) (h2 : c ≠ q.2) :
    plugFun (q :: rest) c = plugFun rest c := by
  show (if c = q.1 then q.2 else if c = q.2 then q.1 else plugFun rest c)
    = plugFun rest c
  rw [if_neg h1, if_neg h2]

theorem plugFun_letter {ps : List (Int × Int)} (hl : pairs_letters ps)
    {c : Int} (h1 : 65 ≤ c) (h2 : c ≤ 90) :
    65 ≤ plugFun ps c ∧ plugFun ps c ≤ 90 := by
  induction ps with
  | nil => exact ⟨h1, h2⟩
  | cons q rest ih =>
    have hq := hl q (by simp)
    have hrest : pairs_letters rest := fun x hx => hl x (by simp [hx])
    unfold plugFun
    split
    · omega
    · split
      · omega
      · exact ih hrest

theorem plugFun_mem_or_eq (ps : List (Int × Int)) (c : Int) :
    plugFun ps c = c ∨ plugFun ps c ∈ pb_letters ps := by
  induction ps with
  | nil => left; rfl
  | cons q rest ih =>
    unfold plugFun pb_letters
    split
    · right; simp
    · split
      · right; simp
      · rcases ih with h | h
        · left; exact h
        · right; simp [h]

theorem plugFun_invol {ps : List (Int × Int)}
    (hnd : (pb_letters ps).Nodup) (c : Int) :
    plugFun ps (plugFun ps c) = c := by
  induction ps with
  | nil => rfl
  | cons q rest ih =>
    rw [show pb_letters (q :: rest) = q.1 :: q.2 :: pb_letters rest from rfl,
      List.nodup_cons, List.nodup_cons] at hnd
    obtain ⟨ha, hb, hnd2⟩ := hnd
    simp only [List.mem_cons, not_or] at ha
    have hab : q.1 ≠ q.2 := ha.1
    have hanr : q.1 ∉ pb_letters rest := ha.2
    by_cases h1 : c = q.1
    · subst h1
      rw [plugFun_cons_left, plugFun_cons_right q rest (Ne.symm hab)]
    · by_cases h2 : c = q.2
      · subst h2
        rw [plugFun_cons_right q rest (Ne.symm hab), plugFun_cons_left]
      · rw [plugFun_cons_other q rest c h1 h2]
        have hd := plugFun_mem_or_eq rest c
        have hda : plugFun rest c ≠ q.1 := by
          rcases hd with h | h
          · rw [h]; exact h1
          · intro he; rw [he] at h; exact hanr h
        have hdb : plugFun rest c ≠ q.2 := by
          rcases hd with h | h
          · rw [h]; exact h2
          · intro he; rw [he] at h; exact hb h
        rw [plugFun_cons_other q rest _ hda hdb]
        exact ih hnd2
theorem rd_append_right (xs ys : List Int) (q : Nat) :
    rd (xs ++ ys) (xs.length + q) = rd ys q := by
  unfold rd
  rw [List.getD_append_right _ _ _ _ (by omega)]
  congr 1
  omega

theorem plug_scan_eq (pb : List Int) (c : Int) (p : Nat) :
    plug_scan pb c p =
      if rd pb p = 0 then (c, p)
      else if c = rd pb p ∧ rd pb (p + 1) ≠ 0 then (rd pb (p + 1), p)
      else if c = rd pb (p + 1) then (rd pb p, p)
      else plug_scan pb c (skip_spaces pb (p + 2)) := by
  rw [plug_scan]

theorem skip_spaces_shift (xs ys : List Int) :
    ∀ q, skip_spaces (xs ++ ys) (xs.length + q) =
      xs.length + skip_spaces ys q := by
  refine skip_spaces.induct ys
    (fun q => skip_spaces (xs ++ ys) (xs.length + q) =
      xs.length + skip_spaces ys q) ?_ ?_
  · intro x h ih
    have hL : rd (xs ++ ys) (xs.length + x) = 32 := by
      rw [rd_append_right]; exact h
    conv_lhs => rw [skip_spaces, if_pos hL]
    conv_rhs => rw [skip_spaces, if_pos h]
    rw [show xs.length + x + 1 = xs.length + (x + 1) from by omega]
    exact ih
  · intro x h
    have hL : rd (xs ++ ys) (xs.length + x) ≠ 32 := by
      rw [rd_append_right]; exact h
    conv_lhs => rw [skip_spaces, if_neg hL]
    conv_rhs => rw [skip_spaces, if_neg h]

theorem plug_scan_shift (xs ys : List Int) (c : Int) :
    ∀ q, plug_scan (xs ++ ys) c (xs.length + q) =
      ((plug_scan ys c q).1, xs.length + (plug_scan ys c q).2) := by
  refine plug_scan.induct ys c
    (fun q => plug_scan (xs ++ ys) c (xs.length + q) =
      ((plug_scan ys c q).1, xs.length + (plug_scan ys c q).2)) ?_ ?_ ?_ ?_
  · intro x h
    have hL : rd (xs ++ ys) (xs.length + x) = 0 := by
      rw [rd_append_right]; exact h
    rw [plug_scan_eq (xs ++ ys), if_pos hL, plug_scan_eq ys, if_pos h]
  · intro x h hm
    have hL : rd (xs ++ ys) (xs.length + x) ≠ 0 := by
      rw [rd_append_right]; exact h
    have hm2 : c = rd (xs ++ ys) (xs.length + x) ∧
        rd (xs ++ ys) (xs.length + x + 1) ≠ 0 := by
      rw [show xs.length + x + 1 = xs.length + (x + 1) from by omega]
      rw [rd_append_right, rd_append_right]; exact hm
    rw [plug_scan_eq (xs ++ ys), if_neg hL, if_pos hm2,
      plug_scan_eq ys, if_neg h, if_pos hm]
    rw [show xs.length + x + 1 = xs.length + (x + 1) from by omega,
      rd_append_right]
  · intro x h hm he
    have hL : rd (xs ++ ys) (xs.length + x) ≠ 0 := by
      rw [rd_append_right]; exact h
    have hm2 : ¬(c = rd (xs ++ ys) (xs.length + x) ∧
        rd (xs ++ ys) (xs.length + x + 1) ≠ 0) := by
      rw [show xs.length + x + 1 = xs.length + (x + 1) from by omega]
      rw [rd_append_right, rd_append_right]; exact hm
    have he2 : c = rd (xs ++ ys) (xs.length + x + 1) := by
      rw [show xs.length + x + 1 = xs.length + (x + 1) from by omega]
      rw [rd_append_right]; exact he
    rw [plug_scan_eq (xs ++ ys), if_neg hL, if_neg hm2, if_pos he2,
      plug_scan_eq ys, if_neg h, if_neg hm, if_pos he]
    rw [rd_append_right]
  · intro x h hm he ih
    have hL : rd (xs ++ ys) (xs.length + x) ≠ 0 := by
      rw [rd_append_right]; exact h
    have hm2 : ¬(c = rd (xs ++ ys) (xs.length + x) ∧
        rd (xs ++ ys) (xs.length + x + 1) ≠ 0) := by
      rw [show xs.length + x + 1 = xs.length + (x + 1) from by omega]
      rw [rd_append_right, rd_append_right]; exact hm
    have he2 : ¬c = rd (xs ++ ys) (xs.length + x + 1) := by
      rw [show xs.length + x + 1 = xs.length + (x + 1) from by omega]
      rw [rd_append_right]; exact he
    rw [plug_scan_eq (xs ++ ys), if_neg hL, if_neg hm2, if_neg he2,
      plug_scan_eq ys, if_neg h, if_neg hm, if_neg he]
    rw [show xs.length + x + 2 = xs.length + (x + 2) from by omega,
      skip_spaces_shift]
    exact ih
theorem pb_render_head (q : Int × Int) (rest : List (Int × Int)) :
    rd (pb_render (q :: rest)) 0 = q.1 := by
  cases rest <;> rfl

theorem plug_scan_render (ps : List (Int × Int)) (hl : pairs_letters ps)
    (c : Int) : (plug_scan (pb_render ps) c 0).1 = plugFun ps c := by
  induction ps with
  | nil =>
    rw [plug_scan_eq]
    norm_num [rd]
    rfl
  | cons q rest ih =>
    have hq := hl q (by simp)
    have hrest : pairs_letters rest := fun x hx => hl x (by simp [hx])
    cases rest with
    | nil =>
      have h0 : rd (pb_render [q]) 0 = q.1 := rfl
      have h1 : rd (pb_render [q]) 1 = q.2 := rfl
      rw [plug_scan_eq, h0, h1]
      rw [if_neg (by omega)]
      by_cases hc1 : c = q.1
      · rw [if_pos ⟨hc1, by omega⟩]
        rw [hc1, plugFun_cons_left]
      · rw [if_neg (by intro hand; exact hc1 hand.1)]
        by_cases hc2 : c = q.2
        · rw [if_pos hc2, hc2, plugFun_cons_right q [] (by omega)]
        · rw [if_neg hc2]
          have h2 : rd (pb_render [q]) 2 = 0 := rfl
          have h3 : rd (pb_render [q]) 3 = 0 := rfl
          have hsk : skip_spaces (pb_render [q]) 2 = 2 := by
            rw [skip_spaces, if_neg (by rw [h2]; omega)]
          rw [hsk, plug_scan_eq, if_pos h2]
          rw [plugFun_cons_other q [] c hc1 hc2]
          rfl
    | cons q2 rest2 =>
      have hq2 := hl q2 (by simp)
      have hren : pb_render (q :: q2 :: rest2) =
          [q.1, q.2, 32] ++ pb_render (q2 :: rest2) := by
        rfl
      have h0 : rd (pb_render (q :: q2 :: rest2)) 0 = q.1 := rfl
      have h1 : rd (pb_render (q :: q2 :: rest2)) 1 = q.2 := rfl
      have h2 : rd (pb_render (q :: q2 :: rest2)) 2 = 32 := rfl
      have h3 : rd (pb_render (q :: q2 :: rest2)) 3 = q2.1 := by
        rw [hren]
        rw [show (3 : Nat) = ([q.1, q.2, 32] : List Int).length + 0 from rfl,
          rd_append_right, pb_render_head]
      rw [plug_scan_eq, h0, h1]
      rw [if_neg (by omega)]
      by_cases hc1 : c = q.1
      · rw [if_pos ⟨hc1, by omega⟩]
        rw [hc1, plugFun_cons_left]
      · rw [if_neg (by intro hand; exact hc1 hand.1)]
        by_cases hc2 : c = q.2
        · rw [if_pos hc2, hc2,
            plugFun_cons_right q (q2 :: rest2) (by omega)]
        · rw [if_neg hc2]
          have hsk : skip_spaces (pb_render (q :: q2 :: rest2)) 2 = 3 := by
            rw [skip_spaces, if_pos h2, skip_spaces, if_neg (by rw [h3]; omega)]
          rw [hsk]
          rw [hren, show (3 : Nat) = ([q.1, q.2, 32] : List Int).length + 0
            from rfl, plug_scan_shift]
          rw [plugFun_cons_other q (q2 :: rest2) c hc1 hc2]
          exact ih hrest

theorem apply_plugboard_render (ps : List (Int × Int))
    (hl : pairs_letters ps) (c : Int) :
    apply_plugboard c (pb_render ps) = plugFun ps c := by
  cases ps with
  | nil => rfl
  | cons q rest =>
    have hq := hl q (by simp)
    unfold apply_plugboard
    rw [pb_render_head]
    rw [if_neg (by omega)]
    exact plug_scan_render _ hl c
theorem encipher_letter_def (st : EnigmaState) (c : Int) :
    encipher_letter st c =
      apply_plugboard
        (encode_through_rotor
          (encode_through_rotor
            (encode_through_rotor
              (idx ALPHABET (rd (rotors_wiring st 3)
                (encode_through_rotor
                  (encode_through_rotor
                    (encode_through_rotor
                      (apply_plugboard c st.plugboard - 65)
                      2 st.pos0 0 st)
                    1 st.pos1 0 st)
                  0 st.pos2 0 st).toNat))
              0 st.pos2 1 st)
            1 st.pos1 1 st)
          2 st.pos0 1 st + 65) st.plugboard := rfl

theorem encipher_letter_invol (p0 p1 p2 : Int) (ps : List (Int × Int))
    (hwf : WF_pairs ps) (c : Int) (hca : 65 ≤ c) (hcb : c ≤ 90) :
    encipher_letter (init_state p0 p1 p2 (pb_render ps))
      (encipher_letter (init_state p0 p1 p2 (pb_render ps)) c) = c := by
  obtain ⟨hl, hnd⟩ := hwf
  set st := init_state p0 p1 p2 (pb_render ps) with hst
  have hw0 : rotor_perm_ok (rotors_wiring st 0) := rotor_perm_ok_all 0
  have hw1 : rotor_perm_ok (rotors_wiring st 1) := rotor_perm_ok_all 1
  have hw2 : rotor_perm_ok (rotors_wiring st 2) := rotor_perm_ok_all 2
  have hr3 : rotors_wiring st 3 = ROTOR_WIRINGS.getD 3 [] := rfl
  have hpb : st.plugboard = pb_render ps := rfl
  rw [encipher_letter_def st (encipher_letter st c), encipher_letter_def st c,
    hpb]
  simp only [apply_plugboard_render ps hl]
  set c1 := plugFun ps c with hc1e
  have hc1b : 65 ≤ c1 ∧ c1 ≤ 90 := plugFun_letter hl hca hcb
  set k0 := c1 - 65 with hk0e
  have hk0b : 0 ≤ k0 ∧ k0 < 26 := by omega
  set k1 := encode_through_rotor k0 2 st.pos0 0 st with hk1e
  have hk1b : 0 ≤ k1 ∧ k1 < 26 := by
    rw [hk1e]; exact encode_bounds _ _ _ _ _
  set k2 := encode_through_rotor k1 1 st.pos1 0 st with hk2e
  have hk2b : 0 ≤ k2 ∧ k2 < 26 := by
    rw [hk2e]; exact encode_bounds _ _ _ _ _
  set k3 := encode_through_rotor k2 0 st.pos2 0 st with hk3e
  have hk3b : 0 ≤ k3 ∧ k3 < 26 := by
    rw [hk3e]; exact encode_bounds _ _ _ _ _
  have hrf := reflect_ok ⟨k3.toNat, by omega⟩
  simp only [wv, Fin.val_mk] at hrf
  set k4 := idx ALPHABET (rd (rotors_wiring st 3) k3.toNat) with hk4e
  have hk4e2 : k4 = idx ALPHABET (rd (ROTOR_WIRINGS.getD 3 []) k3.toNat) := by
    rw [hk4e, hr3]
  have hk4b : 0 ≤ k4 ∧ k4 < 26 := by
    rw [hk4e2]; exact ⟨hrf.1, hrf.2.1⟩
  set k5 := encode_through_rotor k4 0 st.pos2 1 st with hk5e
  have hk5b : 0 ≤ k5 ∧ k5 < 26 := by
    rw [hk5e]; exact encode_bounds _ _ _ _ _
  set k6 := encode_through_rotor k5 1 st.pos1 1 st with hk6e
  have hk6b : 0 ≤ k6 ∧ k6 < 26 := by
    rw [hk6e]; exact encode_bounds _ _ _ _ _
  set k7 := encode_through_rotor k6 2 st.pos0 1 st with hk7e
  rw [plugFun_invol hnd (k7 + 65)]
  rw [show k7 + 65 - 65 = k7 from by omega]
  have hstep3 : encode_through_rotor k7 2 st.pos0 0 st = k6 := by
    rw [hk7e]; exact fwd_rev st 2 hw2 st.pos0 k6 hk6b.1 hk6b.2
  rw [hstep3]
  have hstep2 : encode_through_rotor k6 1 st.pos1 0 st = k5 := by
    rw [hk6e]; exact fwd_rev st 1 hw1 st.pos1 k5 hk5b.1 hk5b.2
  rw [hstep2]
  have hstep1 : encode_through_rotor k5 0 st.pos2 0 st = k4 := by
    rw [hk5e]; exact fwd_rev st 0 hw0 st.pos2 k4 hk4b.1 hk4b.2
  rw [hstep1]
  have hrefl : idx ALPHABET (rd (rotors_wiring st 3) k4.toNat) = k3 := by
    rw [hr3, hk4e2]
    rw [hrf.2.2.1]
    exact Int.toNat_of_nonneg hk3b.1
  rw [hrefl]
  have hstep1b : encode_through_rotor k3 0 st.pos2 1 st = k2 := by
    rw [hk3e]; exact rev_fwd st 0 hw0 st.pos2 k2 hk2b.1 hk2b.2
  rw [hstep1b]
  have hstep2b : encode_through_rotor k2 1 st.pos1 1 st = k1 := by
    rw [hk2e]; exact rev_fwd st 1 hw1 st.pos1 k1 hk1b.1 hk1b.2
  rw [hstep2b]
  have hstep3b : encode_through_rotor k1 2 st.pos0 1 st = k0 := by
    rw [hk1e]; exact rev_fwd st 2 hw2 st.pos0 k0 hk0b.1 hk0b.2
  rw [hstep3b]
  rw [show k0 + 65 = c1 from by omega]
  rw [hc1e, plugFun_invol hnd c]

theorem encode_plus_65_bounds (k : Int) (r : Nat) (p d : Int)
    (st : EnigmaState) :
    65 ≤ encode_through_rotor k r p d st + 65 ∧
    encode_through_rotor k r p d st + 65 ≤ 90 := by
  have := encode_bounds k r p d st
  omega

theorem encipher_letter_bounds (p0 p1 p2 : Int) (ps : List (Int × Int))
    (hl : pairs_letters ps) (c : Int) :
    65 ≤ encipher_letter (init_state p0 p1 p2 (pb_render ps)) c ∧
    encipher_letter (init_state p0 p1 p2 (pb_render ps)) c ≤ 90 := by
  set st := init_state p0 p1 p2 (pb_render ps) with hst
  have hpb : st.plugboard = pb_render ps := rfl
  rw [encipher_letter_def st c, hpb]
  simp only [apply_plugboard_render ps hl]
  exact plugFun_letter hl (encode_plus_65_bounds _ _ _ _ _).1
    (encode_plus_65_bounds _ _ _ _ _).2

theorem encipher_letter_ne (p0 p1 p2 : Int) (ps : List (Int × Int))
    (hwf : WF_pairs ps) (c : Int) (hca : 65 ≤ c) (hcb : c ≤ 90) :
    encipher_letter (init_state p0 p1 p2 (pb_render ps)) c ≠ c := by
  obtain ⟨hl, hnd⟩ := hwf
  set st := init_state p0 p1 p2 (pb_render ps) with hst
  have hw0 : rotor_perm_ok (rotors_wiring st 0) := rotor_perm_ok_all 0
  have hw1 : rotor_perm_ok (rotors_wiring st 1) := rotor_perm_ok_all 1
  have hw2 : rotor_perm_ok (rotors_wiring st 2) := rotor_perm_ok_all 2
  have hr3 : rotors_wiring st 3 = ROTOR_WIRINGS.getD 3 [] := rfl
  have hpb : st.plugboard = pb_render ps := rfl
  rw [encipher_letter_def st c, hpb]
  simp only [apply_plugboard_render ps hl]
  set c1 := plugFun ps c with hc1e
  have hc1b : 65 ≤ c1 ∧ c1 ≤ 90 := plugFun_letter hl hca hcb
  set k0 := c1 - 65 with hk0e
  have hk0b : 0 ≤ k0 ∧ k0 < 26 := by omega
  set k1 := encode_through_rotor k0 2 st.pos0 0 st with hk1e
  have hk1b : 0 ≤ k1 ∧ k1 < 26 := by
    rw [hk1e]; exact encode_bounds _ _ _ _ _
  set k2 := encode_through_rotor k1 1 st.pos1 0 st with hk2e
  have hk2b : 0 ≤ k2 ∧ k2 < 26 := by
    rw [hk2e]; exact encode_bounds _ _ _ _ _
  set k3 := encode_through_rotor k2 0 st.pos2 0 st with hk3e
  have hk3b : 0 ≤ k3 ∧ k3 < 26 := by
    rw [hk3e]; exact encode_bounds _ _ _ _ _
  have hrf := reflect_ok ⟨k3.toNat, by omega⟩
  simp only [wv, Fin.val_mk] at hrf
  set k4 := idx ALPHABET (rd (rotors_wiring st 3) k3.toNat) with hk4e
  have hk4e2 : k4 = idx ALPHABET (rd (ROTOR_WIRINGS.getD 3 []) k3.toNat) := by
    rw [hk4e, hr3]
  have hk4b : 0 ≤ k4 ∧ k4 < 26 := by
    rw [hk4e2]; exact ⟨hrf.1, hrf.2.1⟩
  set k5 := encode_through_rotor k4 0 st.pos2 1 st with hk5e
  have hk5b : 0 ≤ k5 ∧ k5 < 26 := by
    rw [hk5e]; exact encode_bounds _ _ _ _ _
  set k6 := encode_through_rotor k5 1 st.pos1 1 st with hk6e
  have hk6b : 0 ≤ k6 ∧ k6 < 26 := by
    rw [hk6e]; exact encode_bounds _ _ _ _ _
  set k7 := encode_through_rotor k6 2 st.pos0 1 st with hk7e
  intro heq
  have h1 : plugFun ps (plugFun ps (k7 + 65)) = plugFun ps c := by rw [heq]
  rw [plugFun_invol hnd] at h1
  rw [← hc1e] at h1
  have hk7 : k7 = k0 := by omega
  have e1 : k1 = k6 := by
    rw [hk1e, ← hk7, hk7e]
    exact fwd_rev st 2 hw2 st.pos0 k6 hk6b.1 hk6b.2
  have e2 : k2 = k5 := by
    rw [hk2e, e1, hk6e]
    exact fwd_rev st 1 hw1 st.pos1 k5 hk5b.1 hk5b.2
  have e3 : k3 = k4 := by
    rw [hk3e, e2, hk5e]
    exact fwd_rev st 0 hw0 st.pos2 k4 hk4b.1 hk4b.2
  have hne : k4 ≠ k3 := by
    rw [hk4e2]
    have hx := hrf.2.2.2
    rw [Int.toNat_of_nonneg hk3b.1] at hx
    exact hx
  exact hne e3.symm
theorem step_rotors_init_ex (p0 p1 p2 : Int) (pb : List Int) :
    ∃ q0 q1 q2, step_rotors (init_state p0 p1 p2 pb) =
      init_state q0 q1 q2 pb := by
  unfold step_rotors
  dsimp only
  split_ifs <;> exact ⟨_, _, _, rfl⟩

theorem foldChar_letter_fix {c : Int} (h1 : 65 ≤ c) (h2 : c ≤ 90) :
    foldChar c = c := by
  unfold foldChar
  rw [if_neg (by omega)]

theorem run_enigma_cons (st : EnigmaState) (c0 : Int) (rest : List Int) :
    run_enigma st (c0 :: rest) =
      if foldChar c0 < 65 ∨ 90 < foldChar c0 then
        (foldChar c0 :: (run_enigma st rest).1, (run_enigma st rest).2)
      else
        (encipher_letter (step_rotors st) (foldChar c0)
           :: (run_enigma (step_rotors st) rest).1,
         (run_enigma (step_rotors st) rest).2) := by
  rw [run_enigma]

theorem run_roundtrip (ps : List (Int × Int)) (hwf : WF_pairs ps) :
    ∀ (M : List Int) (p0 p1 p2 : Int),
      (run_enigma (init_state p0 p1 p2 (pb_render ps))
        ((run_enigma (init_state p0 p1 p2 (pb_render ps)) M).1)).1
      = M.map foldChar := by
  intro M
  induction M with
  | nil => intro p0 p1 p2; rfl
  | cons c0 rest ih =>
    intro p0 p1 p2
    rw [List.map_cons]
    by_cases hL : foldChar c0 < 65 ∨ 90 < foldChar c0
    · have hnf : ¬(97 ≤ c0 ∧ c0 ≤ 122) := by
        intro hc
        unfold foldChar at hL
        rw [if_pos hc] at hL
        omega
      have hcc : foldChar c0 = c0 := by unfold foldChar; rw [if_neg hnf]
      rw [run_enigma_cons, if_pos hL]
      dsimp only
      rw [run_enigma_cons, if_pos (by rw [hcc]; exact hL)]
      dsimp only
      rw [hcc, hcc, ih p0 p1 p2]
    · push_neg at hL
      have hw := hwf
      obtain ⟨hl, hnd⟩ := hw
      obtain ⟨q0, q1, q2, hq⟩ := step_rotors_init_ex p0 p1 p2 (pb_render ps)
      have hEb := encipher_letter_bounds q0 q1 q2 ps hl
        (foldChar c0)
      rw [run_enigma_cons, if_neg (by omega)]
      dsimp only
      rw [hq]
      have hEf : foldChar (encipher_letter (init_state q0 q1 q2 (pb_render ps))
          (foldChar c0)) = encipher_letter (init_state q0 q1 q2 (pb_render ps))
          (foldChar c0) := foldChar_letter_fix hEb.1 hEb.2
      rw [run_enigma_cons]
      rw [if_neg (by rw [hEf]; omega)]
      dsimp only
      rw [hq, hEf]
      rw [encipher_letter_invol q0 q1 q2 ps hwf (foldChar c0) hL.1 hL.2]
      rw [ih q0 q1 q2]
theorem plug_scan_ptr_le (pb : List Int) (c : Int) :
    ∀ p, (plug_scan pb c p).2 ≤ max p (pb.length + 1) := by
  refine plug_scan.induct pb c
    (fun p => (plug_scan pb c p).2 ≤ max p (pb.length + 1)) ?_ ?_ ?_ ?_
  · intro x h
    rw [plug_scan_eq, if_pos h]
    omega
  · intro x h hm
    rw [plug_scan_eq, if_neg h, if_pos hm]
    omega
  · intro x h hm he
    rw [plug_scan_eq, if_neg h, if_neg hm, if_pos he]
    omega
  · intro x h hm he ih
    rw [plug_scan_eq, if_neg h, if_neg hm, if_neg he]
    have hx : x < pb.length := rd_lt_length h
    have hs1 := skip_spaces_ge pb (x + 2)
    have hs2 := skip_spaces_le pb (x + 2)
    omega

theorem rotors_wiring_init (p0 p1 p2 : Int) (pb : List Int) (r : Fin 4) :
    rotors_wiring (init_state p0 p1 p2 pb) (r : Nat)
      = ROTOR_WIRINGS.getD (r : Nat) [] := by
  fin_cases r <;> rfl

/-- C1 (code bug): `step_rotors` compares the right slot's position with
`notch_positions[0] = 16` (Q, rotor I's notch), although the right slot
houses rotor III, whose notch is V = 21.  At right position 21 (V) the
middle rotor does not advance (it stays at 5), while at right position 16
(Q) it does; the right rotor itself always advances. -/
theorem C1_right_notch_divergence :
    (step_rotors (init_state 21 5 7 [])).pos0 = 22 ∧
    (step_rotors (init_state 21 5 7 [])).pos1 = 5 ∧
    (step_rotors (init_state 16 5 7 [])).pos1 = 6 ∧
    (init_state 21 5 7 []).notch0 = 16 :=
  ⟨rfl, rfl, rfl, rfl⟩

/-- C2, counterexample: from the default state (positions A A A, empty
plugboard), enciphering the single lowercase byte 97 ('a') yields 66
('B'), but enciphering 66 from a fresh copy of the same state yields 65
('A'), not the original 97: the round trip is not the identity on
lowercase input. -/
theorem C2_counterexample_lowercase :
    (run_enigma init_enigma ((run_enigma init_enigma [97]).1)).1 ≠ [97] ∧
    (run_enigma init_enigma [97]).1 = [66] ∧
    (run_enigma init_enigma ((run_enigma init_enigma [97]).1)).1 = [65] :=
  ⟨by decide, rfl, rfl⟩

/-- C2, amended: for every initial position vector, every well-formed
plugboard of disjoint two-letter pairs and every input byte stream `M`,
enciphering the output of enciphering `M` (both from the same initial
state) yields `M` with every lowercase letter replaced by its uppercase
counterpart; all other bytes, including non-letters, are recovered
position-for-position. -/
theorem C2_roundtrip_upper (ps : List (Int × Int)) (hwf : WF_pairs ps)
    (p0 p1 p2 : Int) (M : List Int) :
    (run_enigma (init_state p0 p1 p2 (pb_render ps))
      ((run_enigma (init_state p0 p1 p2 (pb_render ps)) M).1)).1
    = M.map foldChar :=
  run_roundtrip ps hwf M p0 p1 p2

/-- C2, witness: the amended round trip at plugboard pair A-B, positions
A A A, and input "a!B". -/
theorem C2_roundtrip_upper_witness :
    WF_pairs [((65 : Int), (66 : Int))] ∧
    (run_enigma (init_state 0 0 0 (pb_render [(65, 66)]))
      ((run_enigma (init_state 0 0 0 (pb_render [(65, 66)]))
        [97, 33, 66]).1)).1
    = [97, 33, 66].map foldChar :=
  ⟨by decide, C2_roundtrip_upper [(65, 66)] (by decide) 0 0 0 [97, 33, 66]⟩

/-- C3 (code bug): `set_plugboard` performs no validation beyond the
length bound: the self-pair "AA" and the non-letter token "A1 B" are both
accepted and installed verbatim as the plugboard, instead of being
rejected before enciphering. -/
theorem C3_set_plugboard_no_validation :
    set_plugboard init_enigma (strBytes "AA")
      = some { init_enigma with plugboard := strBytes "AA" } ∧
    set_plugboard init_enigma (strBytes "A1 B")
      = some { init_enigma with plugboard := strBytes "A1 B" } ∧
    set_plugboard init_enigma (strBytes "AB AC")
      = some { init_enigma with plugboard := strBytes "AB AC" } :=
  ⟨rfl, rfl, rfl⟩

/-- C4: the substitution pipeline (plugboard, rotors III-II-I forward,
reflector B, rotors I-II-III reverse, plugboard) has no fixed point: for
every position vector, every well-formed plugboard of disjoint two-letter
pairs, and every letter byte, the output differs from the input. -/
theorem C4_no_fixed_point (p0 p1 p2 : Int) (ps : List (Int × Int))
    (hwf : WF_pairs ps) (c : Int) (hca : 65 ≤ c) (hcb : c ≤ 90) :
    encipher_letter (init_state p0 p1 p2 (pb_render ps)) c ≠ c :=
  encipher_letter_ne p0 p1 p2 ps hwf c hca hcb

/-- C4, witness: no fixed point at positions A A A, empty plugboard,
letter A. -/
theorem C4_no_fixed_point_witness :
    WF_pairs [] ∧ (65 : Int) ≤ 65 ∧ (65 : Int) ≤ 90 ∧
    encipher_letter (init_state 0 0 0 (pb_render [])) 65 ≠ 65 :=
  ⟨by decide, by omega, by omega,
    C4_no_fixed_point 0 0 0 [] (by decide) 65 (by omega) (by omega)⟩

/-- C5: `encode_through_rotor` computes, for every input value k in 0..25,
rotor index in 0..3 and position p in 0..25, the value
(W[(k + p) mod 26] - p) mod 26 in the forward direction and
(Winverse[(k + p) mod 26] - p) mod 26 in the reverse direction, where `wv`
is the rotor's numeric wiring permutation, `wi` is its inverse (proved to
invert `wv`), and both results are non-negative residues in 0..25. -/
theorem C5_encode_through_rotor_formula (k p : Fin 26) (r : Fin 4)
    (p0 p1 p2 : Int) (pb : List Int) :
    encode_through_rotor (k : Int) (r : Nat) (p : Int) 0
        (init_state p0 p1 p2 pb)
      = (wv (ROTOR_WIRINGS.getD (r : Nat) [])
          ((((k : Int) + (p : Int)) % 26).toNat) - (p : Int)) % 26 ∧
    encode_through_rotor (k : Int) (r : Nat) (p : Int) 1
        (init_state p0 p1 p2 pb)
      = (wi (ROTOR_WIRINGS.getD (r : Nat) [])
          ((((k : Int) + (p : Int)) % 26).toNat) - (p : Int)) % 26 ∧
    (∀ i : Fin 26, wi (ROTOR_WIRINGS.getD (r : Nat) [])
        (wv (ROTOR_WIRINGS.getD (r : Nat) []) i).toNat = (i : Int)) ∧
    (0 ≤ encode_through_rotor (k : Int) (r : Nat) (p : Int) 0
        (init_state p0 p1 p2 pb) ∧
     encode_through_rotor (k : Int) (r : Nat) (p : Int) 0
        (init_state p0 p1 p2 pb) < 26) ∧
    (0 ≤ encode_through_rotor (k : Int) (r : Nat) (p : Int) 1
        (init_state p0 p1 p2 pb) ∧
     encode_through_rotor (k : Int) (r : Nat) (p : Int) 1
        (init_state p0 p1 p2 pb) < 26) := by
  refine ⟨?_, ?_, ?_, encode_bounds _ _ _ _ _, encode_bounds _ _ _ _ _⟩
  · rw [encode_fwd_eq, rotors_wiring_init]
  · rw [encode_rev_eq, rotors_wiring_init]
  · intro i
    exact ((rotor_perm_ok_all r) i).1.2.2

/-- C6: from initial positions A A A with an empty plugboard, the input
stream "AAAAA" enciphers to exactly "BDZGO". -/
theorem C6_kat_AAAAA :
    (run_enigma init_enigma (strBytes "AAAAA")).1 = strBytes "BDZGO" := rfl

/-- C7: a byte whose uppercase folding is not a letter is emitted
unchanged by the enciphering loop and leaves the whole machine state
(positions, wirings, notches, plugboard) unchanged. -/
theorem C7_nonletter_transparent (st : EnigmaState) (b : Int)
    (rest : List Int) (h : foldChar b < 65 ∨ 90 < foldChar b) :
    run_enigma st (b :: rest)
      = (b :: (run_enigma st rest).1, (run_enigma st rest).2) ∧
    run_enigma st [b] = ([b], st) := by
  have hnf : ¬(97 ≤ b ∧ b ≤ 122) := by
    intro hc
    unfold foldChar at h
    rw [if_pos hc] at h
    omega
  have hcc : foldChar b = b := by
    unfold foldChar
    rw [if_neg hnf]
  constructor
  · rw [run_enigma_cons, if_pos h, hcc]
  · rw [run_enigma_cons, if_pos h, hcc]
    rfl

/-- C7, witness: the byte 33 ('!') passes through unchanged and preserves
the default state. -/
theorem C7_nonletter_transparent_witness :
    (foldChar 33 < 65 ∨ 90 < foldChar 33) ∧
    (run_enigma init_enigma ((33 : Int) :: [65])
      = (33 :: (run_enigma init_enigma [65]).1,
         (run_enigma init_enigma [65]).2) ∧
     run_enigma init_enigma [(33 : Int)] = ([33], init_enigma)) :=
  ⟨by decide, C7_nonletter_transparent init_enigma 33 [65] (by decide)⟩

/-- C8 (code bug): `set_rotor_positions` accepts the lowercase string
"aaa" (the validation loop folds a local copy), but stores the positions
computed from the unfolded bytes: all three stored positions are 32,
outside the range 0..25. -/
theorem C8_lowercase_positions_out_of_range :
    (set_rotor_positions init_enigma (strBytes "aaa")).map EnigmaState.pos0
      = some 32 ∧
    (set_rotor_positions init_enigma (strBytes "aaa")).map EnigmaState.pos1
      = some 32 ∧
    (set_rotor_positions init_enigma (strBytes "aaa")).map EnigmaState.pos2
      = some 32 ∧
    ¬((32 : Int) ≤ 25) :=
  ⟨rfl, rfl, rfl, by omega⟩

/-- C9: for every input value and position in 0..25 and every rotor index
in 0..3, `encode_through_rotor` computes an internal index in 0..25 (within
both the 26-byte wiring string and the 26-byte alphabet string), its two
`idx` lookups find the sought character (they never return -1), and the
result is in 0..25, in both directions. -/
theorem C9_encode_safety (k p : Fin 26) (r : Fin 4) (p0 p1 p2 : Int)
    (pb : List Int) :
    (0 ≤ mod_positive ((k : Int) + (p : Int)) ∧
     mod_positive ((k : Int) + (p : Int)) < 26) ∧
    (mod_positive ((k : Int) + (p : Int))).toNat
      < (rotors_wiring (init_state p0 p1 p2 pb) (r : Nat)).length ∧
    (mod_positive ((k : Int) + (p : Int))).toNat < ALPHABET.length ∧
    idx ALPHABET (rd (rotors_wiring (init_state p0 p1 p2 pb) (r : Nat))
      (mod_positive ((k : Int) + (p : Int))).toNat) ≠ -1 ∧
    idx (rotors_wiring (init_state p0 p1 p2 pb) (r : Nat))
      (rd ALPHABET (mod_positive ((k : Int) + (p : Int))).toNat) ≠ -1 ∧
    (0 ≤ encode_through_rotor (k : Int) (r : Nat) (p : Int) 0
        (init_state p0 p1 p2 pb) ∧
     encode_through_rotor (k : Int) (r : Nat) (p : Int) 0
        (init_state p0 p1 p2 pb) < 26) ∧
    (0 ≤ encode_through_rotor (k : Int) (r : Nat) (p : Int) 1
        (init_state p0 p1 p2 pb) ∧
     encode_through_rotor (k : Int) (r : Nat) (p : Int) 1
        (init_state p0 p1 p2 pb) < 26) := by
  have hm := mod_positive_bounds ((k : Int) + (p : Int))
  have hfin : (mod_positive ((k : Int) + (p : Int))).toNat < 26 := by omega
  have hp := rotor_perm_ok_all r
    ⟨(mod_positive ((k : Int) + (p : Int))).toNat, hfin⟩
  simp only [wv, wi, Fin.val_mk] at hp
  have hlen : (rotors_wiring (init_state p0 p1 p2 pb) (r : Nat)).length
      = 26 := by
    rw [rotors_wiring_init]
    fin_cases r <;> rfl
  have halen : ALPHABET.length = 26 := rfl
  refine ⟨hm, by omega, by omega, ?_, ?_,
    encode_bounds _ _ _ _ _, encode_bounds _ _ _ _ _⟩
  · rw [rotors_wiring_init]
    have := hp.1.1
    omega
  · rw [rotors_wiring_init]
    have := hp.2.1
    omega

/-- C10, counterexample: `set_plugboard` accepts and stores the odd-length
string "A"; scanning it for the input byte 66 ('B') advances the scan
pointer to index 2, one position past the terminating NUL at index 1. -/
theorem C10_pointer_past_terminator :
    set_plugboard init_enigma (strBytes "A")
      = some { init_enigma with plugboard := strBytes "A" } ∧
    (plug_scan (strBytes "A") 66 0).2 = 2 ∧
    (strBytes "A").length = 1 := by
  refine ⟨rfl, ?_, rfl⟩
  rw [plug_scan_eq, if_neg (by decide), if_neg (by decide),
    if_neg (by decide)]
  rw [show skip_spaces (strBytes "A") 2 = 2 from by
    rw [skip_spaces, if_neg (by decide)]]
  rw [plug_scan_eq, if_pos (by decide)]

/-- C10, amended: for every stored plugboard string and every input
character, the pair-scanning loop's pointer never advances more than one
position past the terminating NUL of the stored string (index length + 1),
rather than never past it. -/
theorem C10_pointer_bound (pb : List Int) (c : Int) :
    (plug_scan pb c 0).2 ≤ pb.length + 1 := by
  have h := plug_scan_ptr_le pb c 0
  omega
